import Mathlib

set_option autoImplicit false

namespace Chapisha

/-!
Shallow embedding of the chapisha repository (whythawk/chapisha).

* `UpdateZipFile` and its operations model
  `src/chapisha/helpers/updatezipfile.py`: the pending-operation overlay
  (`_replace`, a Python dict), `writestr`, `remove_file`, `__exit__` and
  `_rebuild_zip`.
* Python dicts are modelled as insertion-ordered association lists with
  unique keys (`alookup`, `aset`, `aerase`).
* Byte buffers are modelled as `List Nat`.
-/

/-- Python `dict.get(k)`: find the value stored at key `k`, if any. -/
def alookup {α : Type} (k : String) : List (String × α) → Option α
  | [] => none
  | (k₂, v) :: rest => if k₂ = k then some v else alookup k rest

/-- Python `d[k] = v`: update in place when the key exists (keeping its
position, as dicts do), otherwise append the new binding at the end. -/
def aset {α : Type} (k : String) (v : α) : List (String × α) → List (String × α)
  | [] => [(k, v)]
  | (k₂, v₂) :: rest => if k₂ = k then (k, v) :: rest else (k₂, v₂) :: aset k v rest

/-- Python `del d[k]`: remove the (unique) binding for `k`. -/
def aerase {α : Type} (k : String) : List (String × α) → List (String × α)
  | [] => []
  | (k₂, v) :: rest => if k₂ = k then rest else (k₂, v) :: aerase k rest

/-- A value of the `_replace` dict in `UpdateZipFile`: either a staged
write (a temp file holding the staged bytes) or the `DeleteMarker`. -/
inductive Replacement where
  | write (data : List Nat)
  | deleteMarker
deriving DecidableEq, Repr

/-- The open-archive session state of `UpdateZipFile`: the entries of the
open zip (in file order, with payloads), the `_replace` overlay dict, and
the `_allow_updates` flag set by `__enter__`. -/
structure UpdateZipFile where
  archive : List (String × List Nat)
  replaceMap : List (String × Replacement)
  allowUpdates : Bool
deriving DecidableEq, Repr

/-- `UpdateZipFile.writestr(name, data)`.  If updates are allowed and the
name is already in `namelist()`, the data is written into the temp file
stored at `_replace[name]` (`dict.get` defaulting to a fresh temp file) —
note that an existing temp file is written at its current position, i.e.
the new bytes are appended after the earlier staged bytes.  Writing onto a
staged `DeleteMarker` raises `AttributeError` (it has no `write`), which we
model as `none`.  Otherwise the entry is appended directly to the still-open
archive (`super().writestr`). -/
def writestr (name : String) (data : List Nat) (s : UpdateZipFile) : Option UpdateZipFile :=
  if s.allowUpdates = true ∧ name ∈ s.archive.map Prod.fst then
    match alookup name s.replaceMap with
    | some (Replacement.write old) =>
        some { s with replaceMap := aset name (Replacement.write (old ++ data)) s.replaceMap }
    | some Replacement.deleteMarker => none
    | none =>
        some { s with replaceMap := aset name (Replacement.write data) s.replaceMap }
  else
    some { s with archive := s.archive ++ [(name, data)] }

/-- `UpdateZipFile.remove_file(path)`: stage a `DeleteMarker` at `path`. -/
def removeFile (path : String) (s : UpdateZipFile) : UpdateZipFile :=
  { s with replaceMap := aset path Replacement.deleteMarker s.replaceMap }

/-- The loop of `UpdateZipFile._rebuild_zip`: stream every entry of the
source archive in order; a staged delete skips the entry and consumes the
marker; a staged write emits the staged bytes, consumes the entry and
closes the temp file; otherwise the original payload is copied.  Returns
the rebuilt entry list, the leftover `_replace` dict, and the names whose
temp files were closed by the loop (in processing order). -/
def rebuildZip : List (String × List Nat) → List (String × Replacement) →
    List (String × List Nat) × List (String × Replacement) × List String
  | [], replaceMap => ([], replaceMap, [])
  | (name, payload) :: rest, replaceMap =>
    match alookup name replaceMap with
    | some Replacement.deleteMarker =>
        rebuildZip rest (aerase name replaceMap)
    | some (Replacement.write data) =>
        let r := rebuildZip rest (aerase name replaceMap)
        ((name, data) :: r.1, r.2.1, name :: r.2.2)
    | none =>
        let r := rebuildZip rest replaceMap
        ((name, payload) :: r.1, r.2.1, r.2.2)

/-- Names of staged writes in a `_replace` dict (those values that have a
`close` attribute, i.e. the temp files `_close_all_temp_files` closes). -/
def leftoverWrites (l : List (String × Replacement)) : List String :=
  l.filterMap (fun e => match e.2 with
    | Replacement.write _ => some e.1
    | Replacement.deleteMarker => none)

/-- Result of `UpdateZipFile.__exit__`: the final archive file contents,
the `_replace` dict as it stands after exit (it is never cleared as a
whole, only consumed entry-by-entry during the rebuild), and the names of
temp buffers that were closed, in order. -/
structure SessionExit where
  archive : List (String × List Nat)
  leftover : List (String × Replacement)
  released : List String
deriving DecidableEq, Repr

/-- `UpdateZipFile.__exit__`: close the zip (session appends are already
part of `archive`); if `_replace` is non-empty run `_rebuild_zip`; finally
`_close_all_temp_files` closes every temp file still in the dict. -/
def exitSession (s : UpdateZipFile) : SessionExit :=
  if s.replaceMap.isEmpty then
    { archive := s.archive, leftover := s.replaceMap, released := leftoverWrites s.replaceMap }
  else
    let r := rebuildZip s.archive s.replaceMap
    { archive := r.1, leftover := r.2.1, released := r.2.2 ++ leftoverWrites r.2.1 }

/-!
File-system model for the atomicity of `_rebuild_zip` (claim C2): the loop
writes every rebuilt entry into `new.zip` inside a fresh temp directory,
and only the final `shutil.move(temp_zip_path, self.filename)` touches the
original archive file.
-/

/-- One observable file-system action of `_rebuild_zip`. -/
inductive FsStep where
  | writeTemp (name : String) (data : List Nat)
  | moveTempOverOriginal
deriving DecidableEq, Repr

/-- The two files `_rebuild_zip` can touch: the original archive and the
temporary `new.zip`. -/
structure Fs where
  original : List (String × List Nat)
  temp : List (String × List Nat)
deriving DecidableEq, Repr

/-- Effect of one file-system step. -/
def applyStep (fs : Fs) : FsStep → Fs
  | FsStep.writeTemp n d => { fs with temp := fs.temp ++ [(n, d)] }
  | FsStep.moveTempOverOriginal => { fs with original := fs.temp }

/-- Run a sequence of file-system steps. -/
def runSteps (steps : List FsStep) (fs : Fs) : Fs :=
  steps.foldl applyStep fs

/-- The file-system steps of one commit: write each rebuilt entry to the
temp archive in order, then atomically rename it over the original. -/
def commitSteps (archive : List (String × List Nat)) (replaceMap : List (String × Replacement)) :
    List FsStep :=
  ((rebuildZip archive replaceMap).1.map (fun e => FsStep.writeTemp e.1 e.2)) ++
    [FsStep.moveTempOverOriginal]

/-!
### Association-list lemmas
-/

theorem alookup_aset_self {α : Type} (k : String) (v : α) (l : List (String × α)) :
    alookup k (aset k v l) = some v := by
  induction l with
  | nil => simp [aset, alookup]
  | cons hd rest ih =>
    obtain ⟨k₂, v₂⟩ := hd
    by_cases h : k₂ = k
    · simp [aset, alookup, h]
    · simp only [aset, if_neg h, alookup, ih, if_neg h]

theorem alookup_aset_ne {α : Type} {k p : String} (v : α) (l : List (String × α))
    (h : k ≠ p) : alookup p (aset k v l) = alookup p l := by
  induction l with
  | nil => simp [aset, alookup, h]
  | cons hd rest ih =>
    obtain ⟨k₂, v₂⟩ := hd
    by_cases h₂ : k₂ = k
    · subst h₂
      simp [aset, alookup, if_neg h, ih]
    · simp only [aset, if_neg h₂, alookup, ih]

theorem alookup_aerase_ne {α : Type} {k p : String} (l : List (String × α))
    (h : k ≠ p) : alookup p (aerase k l) = alookup p l := by
  induction l with
  | nil => simp [aerase]
  | cons hd rest ih =>
    obtain ⟨k₂, v₂⟩ := hd
    by_cases h₂ : k₂ = k
    · subst h₂
      simp [aerase, alookup, if_neg h]
    · simp only [aerase, if_neg h₂, alookup, ih]

theorem alookup_none_aerase {α : Type} {p : String} (k : String) {l : List (String × α)}
    (h : alookup p l = none) : alookup p (aerase k l) = none := by
  induction l with
  | nil => simpa [aerase] using h
  | cons hd rest ih =>
    obtain ⟨k₂, v₂⟩ := hd
    rw [alookup] at h
    by_cases hk : k₂ = p
    · simp [hk] at h
    · rw [if_neg hk] at h
      by_cases h₂ : k₂ = k
      · simpa [aerase, h₂] using h
      · rw [aerase, if_neg h₂, alookup, if_neg hk]
        exact ih h

theorem alookup_eq_none_iff {α : Type} {p : String} {l : List (String × α)} :
    alookup p l = none ↔ p ∉ l.map Prod.fst := by
  induction l with
  | nil => simp [alookup]
  | cons hd rest ih =>
    obtain ⟨k₂, v₂⟩ := hd
    by_cases hk : k₂ = p
    · simp [alookup, hk]
    · simp [alookup, hk, ih, Ne.symm hk]

theorem alookup_append_right {α : Type} {p : String} {a b : List (String × α)}
    (h : alookup p a = none) : alookup p (a ++ b) = alookup p b := by
  induction a with
  | nil => rfl
  | cons hd rest ih =>
    obtain ⟨k₂, v₂⟩ := hd
    rw [alookup] at h
    by_cases hk : k₂ = p
    · simp [hk] at h
    · rw [List.cons_append, alookup, if_neg hk]
      rw [if_neg hk] at h
      exact ih h

theorem aset_ne_nil {α : Type} (k : String) (v : α) (l : List (String × α)) :
    aset k v l ≠ [] := by
  cases l with
  | nil => simp [aset]
  | cons hd rest =>
    obtain ⟨k₂, v₂⟩ := hd
    rw [aset]
    split <;> simp

theorem aerase_eq_filter {α : Type} {k : String} {l : List (String × α)}
    (h : (l.map Prod.fst).Nodup) :
    aerase k l = l.filter (fun e => decide (e.1 ≠ k)) := by
  induction l with
  | nil => rfl
  | cons hd rest ih =>
    obtain ⟨k₂, v₂⟩ := hd
    simp only [List.map_cons, List.nodup_cons] at h
    by_cases h₂ : k₂ = k
    · subst h₂
      rw [aerase, if_pos rfl, List.filter_cons, if_neg (by simp)]
      symm
      rw [List.filter_eq_self]
      intro e he
      simp only [decide_eq_true_eq, ne_eq]
      intro hek
      exact h.1 (hek ▸ (List.mem_map_of_mem Prod.fst he))
    · rw [aerase, if_neg h₂, List.filter_cons, if_pos (by simp [h₂]), ih h.2]

theorem keys_aerase_sublist {α : Type} (k : String) (l : List (String × α)) :
    ((aerase k l).map Prod.fst).Sublist (l.map Prod.fst) := by
  induction l with
  | nil => simp [aerase]
  | cons hd rest ih =>
    obtain ⟨k₂, v₂⟩ := hd
    rw [aerase]
    by_cases h₂ : k₂ = k
    · rw [if_pos h₂]
      exact (List.sublist_cons_self _ _)
    · rw [if_neg h₂]
      simpa using ih.cons₂ k₂

theorem keys_aerase_nodup {α : Type} (k : String) {l : List (String × α)}
    (h : (l.map Prod.fst).Nodup) : ((aerase k l).map Prod.fst).Nodup :=
  (keys_aerase_sublist k l).nodup h

/-!
### `_rebuild_zip` lemmas
-/

theorem rebuild_names_sublist (a : List (String × List Nat)) :
    ∀ r : List (String × Replacement),
    ((rebuildZip a r).1.map Prod.fst).Sublist (a.map Prod.fst) := by
  induction a with
  | nil => intro r; simp [rebuildZip]
  | cons hd rest ih =>
    intro r
    obtain ⟨name, payload⟩ := hd
    rw [rebuildZip]
    cases hv : alookup name r with
    | none => simpa using (ih r).cons₂ name
    | some v =>
      cases v with
      | write data => simpa using (ih (aerase name r)).cons₂ name
      | deleteMarker => exact (ih (aerase name r)).cons name

theorem rebuild_closed_sublist (a : List (String × List Nat)) :
    ∀ r : List (String × Replacement),
    ((rebuildZip a r).2.2).Sublist (a.map Prod.fst) := by
  induction a with
  | nil => intro r; simp [rebuildZip]
  | cons hd rest ih =>
    intro r
    obtain ⟨name, payload⟩ := hd
    rw [rebuildZip]
    cases hv : alookup name r with
    | none => exact (ih r).cons name
    | some v =>
      cases v with
      | write data => simpa using (ih (aerase name r)).cons₂ name
      | deleteMarker => exact (ih (aerase name r)).cons name

theorem rebuild_lookup_none {p : String} (a : List (String × List Nat)) :
    ∀ r : List (String × Replacement), alookup p r = none →
    alookup p (rebuildZip a r).1 = alookup p a := by
  induction a with
  | nil => intro r _; rfl
  | cons hd rest ih =>
    intro r h
    obtain ⟨name, payload⟩ := hd
    rw [rebuildZip]
    cases hv : alookup name r with
    | none =>
      by_cases hnp : name = p
      · subst hnp
        rw [alookup, if_pos rfl, alookup, if_pos rfl]
      · rw [alookup, if_neg hnp, alookup, if_neg hnp]
        exact ih r h
    | some v =>
      have hnp : name ≠ p := by
        intro he; subst he; rw [h] at hv; exact Option.noConfusion hv
      cases v with
      | write data =>
        rw [alookup, if_neg hnp, alookup, if_neg hnp]
        exact ih (aerase name r) (alookup_none_aerase name h)
      | deleteMarker =>
        rw [alookup, if_neg hnp]
        exact ih (aerase name r) (alookup_none_aerase name h)

theorem rebuild_lookup_write {p : String} {b : List Nat} (a : List (String × List Nat)) :
    ∀ r : List (String × Replacement), alookup p r = some (Replacement.write b) →
    p ∈ a.map Prod.fst → alookup p (rebuildZip a r).1 = some b := by
  induction a with
  | nil => intro r _ hmem; simp at hmem
  | cons hd rest ih =>
    intro r h hmem
    obtain ⟨name, payload⟩ := hd
    rw [rebuildZip]
    by_cases hnp : name = p
    · subst hnp
      rw [h]
      rw [alookup, if_pos rfl]
    · have hmem₂ : p ∈ rest.map Prod.fst := by
        simpa [hnp, Ne.symm hnp] using hmem
      cases hv : alookup name r with
      | none =>
        rw [alookup, if_neg hnp]
        exact ih r h hmem₂
      | some v =>
        cases v with
        | write data =>
          rw [alookup, if_neg hnp]
          exact ih (aerase name r) (by rw [alookup_aerase_ne _ hnp]; exact h) hmem₂
        | deleteMarker =>
          exact ih (aerase name r) (by rw [alookup_aerase_ne _ hnp]; exact h) hmem₂

theorem rebuild_delete_notMem {p : String} (a : List (String × List Nat)) :
    ∀ r : List (String × Replacement), (a.map Prod.fst).Nodup →
    alookup p r = some Replacement.deleteMarker →
    p ∉ (rebuildZip a r).1.map Prod.fst := by
  induction a with
  | nil => intro r _ _; simp [rebuildZip]
  | cons hd rest ih =>
    intro r hA h
    obtain ⟨name, payload⟩ := hd
    simp only [List.map_cons, List.nodup_cons] at hA
    rw [rebuildZip]
    by_cases hnp : name = p
    · subst hnp
      rw [h]
      intro hmem
      exact hA.1 (((rebuild_names_sublist rest (aerase name r)).subset) hmem)
    · cases hv : alookup name r with
      | none =>
        intro hmem
        simp only [List.map_cons, List.mem_cons] at hmem
        rcases hmem with he | hmem₂
        · exact hnp he.symm
        · exact ih r hA.2 h hmem₂
      | some v =>
        have h₂ : alookup p (aerase name r) = some Replacement.deleteMarker := by
          rw [alookup_aerase_ne _ hnp]; exact h
        cases v with
        | write data =>
          intro hmem
          simp only [List.map_cons, List.mem_cons] at hmem
          rcases hmem with he | hmem₂
          · exact hnp he.symm
          · exact ih (aerase name r) hA.2 h₂ hmem₂
        | deleteMarker => exact ih (aerase name r) hA.2 h₂

theorem rebuild_rest_filter (a : List (String × List Nat)) :
    ∀ r : List (String × Replacement), (r.map Prod.fst).Nodup →
    (rebuildZip a r).2.1 = r.filter (fun e => decide (e.1 ∉ a.map Prod.fst)) := by
  induction a with
  | nil =>
    intro r _
    rw [rebuildZip]
    symm
    rw [List.filter_eq_self]
    intro e _
    simp
  | cons hd rest ih =>
    intro r hR
    obtain ⟨name, payload⟩ := hd
    rw [rebuildZip]
    have hcongr : ∀ v : List Nat → Replacement,
        (aerase name r).filter (fun e => decide (e.1 ∉ rest.map Prod.fst)) =
          r.filter (fun e => decide (e.1 ∉ ((name, payload) :: rest).map Prod.fst)) := by
      intro _
      rw [aerase_eq_filter hR, List.filter_filter]
      refine List.filter_congr ?_
      intro e _
      rw [Bool.decide_and (e.1 ∉ rest.map Prod.fst) (e.1 ≠ name) |>.symm]
      refine decide_eq_decide.mpr ?_
      simp only [List.map_cons, List.mem_cons, ne_eq]
      tauto
    cases hv : alookup name r with
    | none =>
      rw [ih r hR]
      refine List.filter_congr ?_
      intro e he
      have hne : e.1 ≠ name := by
        intro hee
        exact (alookup_eq_none_iff.mp hv) (hee ▸ List.mem_map_of_mem Prod.fst he)
      refine decide_eq_decide.mpr ?_
      simp only [List.map_cons, List.mem_cons]
      tauto
    | some v =>
      cases v with
      | write data =>
        rw [ih (aerase name r) (keys_aerase_nodup name hR)]
        exact hcongr Replacement.write
      | deleteMarker =>
        rw [ih (aerase name r) (keys_aerase_nodup name hR)]
        exact hcongr Replacement.write

theorem rebuild_closed_count (a : List (String × List Nat)) :
    ∀ (r : List (String × Replacement)) {p : String} {b : List Nat},
    (a.map Prod.fst).Nodup → alookup p r = some (Replacement.write b) →
    p ∈ a.map Prod.fst → (rebuildZip a r).2.2.count p = 1 := by
  induction a with
  | nil => intro r p b _ _ hmem; simp at hmem
  | cons hd rest ih =>
    intro r p b hA h hmem
    obtain ⟨name, payload⟩ := hd
    simp only [List.map_cons, List.nodup_cons] at hA
    rw [rebuildZip]
    by_cases hnp : name = p
    · subst hnp
      rw [h]
      have hnotmem : name ∉ (rebuildZip rest (aerase name r)).2.2 := fun hc =>
        hA.1 ((rebuild_closed_sublist rest (aerase name r)).subset hc)
      rw [List.count_cons_self, List.count_eq_zero.mpr hnotmem]
    · have hmem₂ : p ∈ rest.map Prod.fst := by
        simp only [List.map_cons, List.mem_cons] at hmem
        rcases hmem with he | hm
        · exact absurd he.symm hnp
        · exact hm
      have h₂ : alookup p (aerase name r) = some (Replacement.write b) := by
        rw [alookup_aerase_ne _ hnp]; exact h
      cases hv : alookup name r with
      | none => exact ih r hA.2 h hmem₂
      | some v =>
        cases v with
        | write data =>
          rw [List.count_cons_of_ne (fun hc => hnp hc.symm)]
          exact ih (aerase name r) hA.2 h₂ hmem₂
        | deleteMarker => exact ih (aerase name r) hA.2 h₂ hmem₂

/-!
### File-system step lemmas
-/

theorem runSteps_writes_original (steps : List FsStep) :
    ∀ fs : Fs, (∀ st ∈ steps, ∃ n d, st = FsStep.writeTemp n d) →
    (runSteps steps fs).original = fs.original := by
  induction steps with
  | nil => intro fs _; rfl
  | cons st rest ih =>
    intro fs h
    obtain ⟨n, d, he⟩ := h st (List.mem_cons_self st rest)
    subst he
    have : runSteps (FsStep.writeTemp n d :: rest) fs =
        runSteps rest (applyStep fs (FsStep.writeTemp n d)) := rfl
    rw [this, ih _ (fun st₂ hst₂ => h st₂ (List.mem_cons_of_mem _ hst₂))]
    rfl

theorem runSteps_writes_temp (l : List (String × List Nat)) :
    ∀ fs : Fs, (runSteps (l.map (fun e => FsStep.writeTemp e.1 e.2)) fs).temp = fs.temp ++ l := by
  induction l with
  | nil => intro fs; simp [runSteps]
  | cons e rest ih =>
    intro fs
    obtain ⟨n, d⟩ := e
    have : runSteps (((n, d) :: rest).map (fun e => FsStep.writeTemp e.1 e.2)) fs =
        runSteps (rest.map (fun e => FsStep.writeTemp e.1 e.2))
          (applyStep fs (FsStep.writeTemp n d)) := rfl
    rw [this, ih]
    simp [applyStep]

/-!
### Claims C1, C2, C3, C4, C10 — the archive patcher
-/

/-- Claim C1: for every archive and every set of staged operations (at most
one per path, the `_replace` dict) applied during a committed rebuild, the
rebuilt archive maps every path that was not staged to its original
payload, every path staged as a write to exactly the staged bytes, and
contains no path staged as a delete; entries are emitted in the original
archive's entry order (the rebuilt name sequence is a sublist of the
original name sequence). -/
theorem claim_C1_rebuild_overlay (a : List (String × List Nat))
    (r : List (String × Replacement)) (hA : (a.map Prod.fst).Nodup) :
    (∀ p, alookup p r = none → alookup p (rebuildZip a r).1 = alookup p a) ∧
    (∀ p b, alookup p r = some (Replacement.write b) → p ∈ a.map Prod.fst →
      alookup p (rebuildZip a r).1 = some b) ∧
    (∀ p, alookup p r = some Replacement.deleteMarker →
      p ∉ (rebuildZip a r).1.map Prod.fst) ∧
    ((rebuildZip a r).1.map Prod.fst).Sublist (a.map Prod.fst) := by
  refine ⟨fun p hp => rebuild_lookup_none a r hp,
    fun p b hp hm => rebuild_lookup_write a r hp hm,
    fun p hp => rebuild_delete_notMem a r hA hp,
    rebuild_names_sublist a r⟩

/-- Claim C1 witness: a concrete archive with a staged write at `a`, a
staged delete at `b` and an unstaged path `c`. -/
theorem claim_C1_rebuild_overlay_witness :
    alookup "c" (rebuildZip [("a", [1]), ("b", [2]), ("c", [3])]
      [("a", Replacement.write [9]), ("b", Replacement.deleteMarker)]).1 = some [3] ∧
    alookup "a" (rebuildZip [("a", [1]), ("b", [2]), ("c", [3])]
      [("a", Replacement.write [9]), ("b", Replacement.deleteMarker)]).1 = some [9] ∧
    "b" ∉ ((rebuildZip [("a", [1]), ("b", [2]), ("c", [3])]
      [("a", Replacement.write [9]), ("b", Replacement.deleteMarker)]).1.map Prod.fst) := by
  have h := claim_C1_rebuild_overlay [("a", [1]), ("b", [2]), ("c", [3])]
    [("a", Replacement.write [9]), ("b", Replacement.deleteMarker)] (by decide)
  exact ⟨(h.1 "c" (by decide)).trans (by decide),
    h.2.1 "a" [9] (by decide) (by decide),
    h.2.2.1 "b" (by decide)⟩

/-- Claim C2: a commit that fails before the final rename (any strict
prefix of the commit's file-system steps, all of which are writes into the
temporary `new.zip`) leaves the original archive byte-for-byte unchanged,
while a completed commit replaces it with exactly the rebuilt entries. -/
theorem claim_C2_atomic_commit (archive : List (String × List Nat))
    (replaceMap : List (String × Replacement)) (k : Nat)
    (hk : k < (commitSteps archive replaceMap).length) :
    (runSteps ((commitSteps archive replaceMap).take k)
      { original := archive, temp := [] }).original = archive ∧
    (runSteps (commitSteps archive replaceMap)
      { original := archive, temp := [] }).original = (rebuildZip archive replaceMap).1 := by
  constructor
  · have hk₂ : k ≤ ((rebuildZip archive replaceMap).1.map
        (fun e => FsStep.writeTemp e.1 e.2)).length := by
      have := hk
      rw [commitSteps, List.length_append] at this
      simpa using Nat.lt_succ_iff.mp (by simpa using this)
    rw [commitSteps, List.take_append_of_le_length hk₂]
    refine runSteps_writes_original _ _ ?_
    intro st hst
    have hst₂ := (List.take_subset _ _) hst
    obtain ⟨e, _, he⟩ := List.mem_map.mp hst₂
    exact ⟨e.1, e.2, he.symm⟩
  · rw [commitSteps, runSteps, List.foldl_append]
    have ht := runSteps_writes_temp (rebuildZip archive replaceMap).1
      { original := archive, temp := [] }
    rw [runSteps] at ht
    simp only [List.foldl_cons, List.foldl_nil, applyStep, ht, List.nil_append]

/-- Claim C2 witness: a concrete one-entry archive with one staged write;
aborting after the first temp write leaves the original unchanged. -/
theorem claim_C2_atomic_commit_witness :
    (runSteps ((commitSteps [("a", [1])] [("a", Replacement.write [9])]).take 1)
      { original := [("a", [1])], temp := [] }).original = [("a", [1])] ∧
    (runSteps (commitSteps [("a", [1])] [("a", Replacement.write [9])])
      { original := [("a", [1])], temp := [] }).original =
      (rebuildZip [("a", [1])] [("a", Replacement.write [9])]).1 :=
  claim_C2_atomic_commit [("a", [1])] [("a", Replacement.write [9])] 1 (by decide)

/-- Claim C3 counterexample: on the archive holding path `p`, staging the
write `[1]` and then the write `[2]` at `p` and committing leaves `[1, 2]`
(the concatenation) at `p`, not `[2]` as the claim states: the second
`writestr` writes into the existing temp file at its current position, so
it appends instead of overwriting. -/
theorem claim_C3_two_writes_counterexample :
    ((writestr "p" [1] { archive := [("p", [7])], replaceMap := [], allowUpdates := true }).bind
      (writestr "p" [2])).map (fun s₂ => alookup "p" (exitSession s₂).archive) =
      some (some [1, 2]) ∧
    some (some ([1, 2] : List Nat)) ≠ some (some ([2] : List Nat)) := by
  exact ⟨by decide, by decide⟩

/-- Claim C3 amended: for every open session, path `p` present in the
archive with no operation yet staged at `p`, staging the write `b1` and
then the write `b2` at `p` succeeds, and after commit the rebuilt archive
holds the concatenation `b1 ++ b2` at `p` (the second staging appends to
the first, it does not replace it). -/
theorem claim_C3_two_writes_append (s : UpdateZipFile) (p : String) (b1 b2 : List Nat)
    (hallow : s.allowUpdates = true) (hmem : p ∈ s.archive.map Prod.fst)
    (hstage : alookup p s.replaceMap = none) :
    ((writestr p b1 s).bind (writestr p b2)).map
      (fun s₂ => alookup p (exitSession s₂).archive) = some (some (b1 ++ b2)) := by
  have h₁ : writestr p b1 s =
      some { s with replaceMap := aset p (Replacement.write b1) s.replaceMap } := by
    rw [writestr, if_pos ⟨hallow, hmem⟩, hstage]
  have h₂ : writestr p b2 { s with replaceMap := aset p (Replacement.write b1) s.replaceMap } =
      some { s with replaceMap := aset p (Replacement.write (b1 ++ b2)) (aset p (Replacement.write b1) s.replaceMap) } := by
    rw [writestr, if_pos (show s.allowUpdates = true ∧ p ∈ s.archive.map Prod.fst from ⟨hallow, hmem⟩), alookup_aset_self]
  rw [h₁, Option.some_bind, h₂, Option.map_some']
  congr 1
  set rm := aset p (Replacement.write (b1 ++ b2)) (aset p (Replacement.write b1) s.replaceMap) with hrm
  have hne : rm ≠ [] := aset_ne_nil _ _ _
  rw [exitSession, if_neg (by simpa [List.isEmpty_iff] using hne)]
  exact rebuild_lookup_write s.archive rm (by rw [hrm, alookup_aset_self]) hmem

/-- Claim C3 amended witness: the concrete instance of the appended double
write, with archive `[(p, [7])]`, `b1 = [1]`, `b2 = [2]`. -/
theorem claim_C3_two_writes_append_witness :
    ((writestr "p" [1] { archive := [("p", [7])], replaceMap := [], allowUpdates := true }).bind
      (writestr "p" [2])).map (fun s₂ => alookup "p" (exitSession s₂).archive) =
      some (some ([1] ++ [2])) :=
  claim_C3_two_writes_append
    { archive := [("p", [7])], replaceMap := [], allowUpdates := true } "p" [1] [2]
    rfl (by decide) rfl

/-- Claim C4 counterexample: staging a delete for a path absent from the
archive (`remove_file` accepts any path) and exiting leaves that marker in
the pending-operation map: `__exit__` never clears `_replace` as a whole,
it is only consumed entry-by-entry for paths actually met during the
rebuild. -/
theorem claim_C4_drain_counterexample :
    (exitSession { archive := [("a", [0])], replaceMap := [("ghost", Replacement.deleteMarker)], allowUpdates := true }).leftover ≠ [] := by
  decide

/-- Claim C4 amended: when every staged operation targets a path present
in the archive (which is how `writestr` stages writes) and the rebuild
runs to completion, the pending-operation map is fully drained and every
staged write buffer is released (closed) exactly once; an operation staged
for an absent path, however, survives in the map after exit. -/
theorem claim_C4_exit_drains (s : UpdateZipFile)
    (hA : (s.archive.map Prod.fst).Nodup) (hR : (s.replaceMap.map Prod.fst).Nodup)
    (hsub : ∀ e ∈ s.replaceMap, e.1 ∈ s.archive.map Prod.fst) :
    (exitSession s).leftover = [] ∧
    ∀ p b, alookup p s.replaceMap = some (Replacement.write b) →
      (exitSession s).released.count p = 1 := by
  by_cases hE : s.replaceMap.isEmpty = true
  · have hnil : s.replaceMap = [] := List.isEmpty_iff.mp hE
    rw [exitSession, if_pos hE]
    refine ⟨hnil, fun p b hp => ?_⟩
    rw [hnil] at hp
    exact absurd hp (by rw [alookup]; exact Option.noConfusion)
  · rw [exitSession, if_neg hE]
    have hrest : (rebuildZip s.archive s.replaceMap).2.1 = [] := by
      rw [rebuild_rest_filter s.archive s.replaceMap hR]
      rw [List.filter_eq_nil_iff]
      intro e he
      simp only [decide_eq_true_eq, not_not]
      exact hsub e he
    refine ⟨hrest, fun p b hp => ?_⟩
    have hpmem : p ∈ s.replaceMap.map Prod.fst := by
      by_contra hc
      rw [alookup_eq_none_iff.mpr hc] at hp
      exact Option.noConfusion hp
    obtain ⟨e, hemem, hefst⟩ := List.mem_map.mp hpmem
    have hparch : p ∈ s.archive.map Prod.fst := hefst ▸ hsub e hemem
    simp only [hrest, leftoverWrites, List.filterMap_nil, List.append_nil]
    exact rebuild_closed_count s.archive s.replaceMap hA hp hparch

/-- Claim C4 amended witness: concrete session with one staged write and
one staged delete, both for existing paths. -/
theorem claim_C4_exit_drains_witness :
    (exitSession { archive := [("a", [7]), ("b", [8])], replaceMap := [("a", Replacement.write [1]), ("b", Replacement.deleteMarker)], allowUpdates := true }).leftover = [] ∧
    (exitSession { archive := [("a", [7]), ("b", [8])], replaceMap := [("a", Replacement.write [1]), ("b", Replacement.deleteMarker)], allowUpdates := true }).released.count "a" = 1 := by
  have h := claim_C4_exit_drains { archive := [("a", [7]), ("b", [8])], replaceMap := [("a", Replacement.write [1]), ("b", Replacement.deleteMarker)], allowUpdates := true } (by decide) (by decide) (by decide)
  exact ⟨h.1, h.2 "a" [1] (by decide)⟩

/-- Claim C10: a `writestr(name, data)` for a `name` not among the
archive's current entry names bypasses the `_replace` overlay entirely
(the guard `name in self.namelist()` fails) and is appended directly to
the still-open archive; after the session closes — whether or not a
rebuild runs — the final archive contains `name` with payload `data`,
even though no operation was ever staged for `name`. -/
theorem claim_C10_new_path_writethrough (s : UpdateZipFile) (name : String) (data : List Nat)
    (hname : name ∉ s.archive.map Prod.fst)
    (hstage : alookup name s.replaceMap = none) :
    (writestr name data s).map
      (fun s₂ => alookup name (exitSession s₂).archive) = some (some data) := by
  have h₁ : writestr name data s =
      some { s with archive := s.archive ++ [(name, data)] } := by
    rw [writestr, if_neg (fun hc => hname hc.2)]
  rw [h₁, Option.map_some']
  congr 1
  have harch : alookup name (s.archive ++ [(name, data)]) = some data := by
    rw [alookup_append_right (alookup_eq_none_iff.mpr hname), alookup, if_pos rfl]
  by_cases hE : s.replaceMap.isEmpty = true
  · rw [exitSession, if_pos hE]
    exact harch
  · rw [exitSession, if_neg hE]
    exact (rebuild_lookup_none (s.archive ++ [(name, data)]) s.replaceMap hstage).trans harch

/-- Claim C10 witness: writing a brand-new path `q` into a session that
also has a staged write for an existing path `a`. -/
theorem claim_C10_new_path_writethrough_witness :
    (writestr "q" [5] { archive := [("a", [1])], replaceMap := [("a", Replacement.write [9])], allowUpdates := true }).map
      (fun s₂ => alookup "q" (exitSession s₂).archive) = some (some [5]) :=
  claim_C10_new_path_writethrough { archive := [("a", [1])], replaceMap := [("a", Replacement.write [9])], allowUpdates := true } "q" [5]
    (by decide) rfl

/-!
Embedding of the spine/manifest documents from
`src/chapisha/helpers/pages.py` and `src/chapisha/models/matter.py`.
-/

/-- `MatterPartition` from `models/matter.py`. -/
inductive MatterPartition where
  | front
  | body
  | back
deriving DecidableEq, Repr

/-- The union of the `FrontMatter`, `BodyMatter` and `BackMatter` enums
from `models/matter.py` (one inductive, since `Matter.content` holds any
of the three). -/
inductive MatterContent where
  | cover
  | titlepage
  | imprint
  | dedication
  | epigraph
  | acknowledgements
  | foreword
  | preface
  | introduction
  | toc
  | prologue
  | epilogue
  | afterword
  | illustrations
  | endnotes
  | colophon
  | copyright
deriving DecidableEq, Repr

/-- `Matter` from `models/matter.py`: a partition, an optional content
tag and an optional title. -/
structure Matter where
  partition : MatterPartition
  content : Option MatterContent
  title : Option String
deriving DecidableEq, Repr

/-- Href of the dedication page, as rendered by all three documents. -/
def dedicationHref : String := "text/dedication.xhtml"

/-- Href of chapter `n`, as rendered by all three documents. -/
def chapterHref (n : Nat) : String := "text/chapter-" ++ toString n ++ ".xhtml"

/-- The chapter/spine loop of `create_content_opf` (pages.py lines
176-191): for each matter, a dedication content tag emits the dedication
manifest item and itemref, and a body partition emits the item and
itemref for the running chapter number, which then increments.  We record
the emitted hrefs in order. -/
def opfSpineRefs : List Matter → Nat → List String
  | [], _ => []
  | m :: rest, chapter =>
    (if m.content = some MatterContent.dedication then [dedicationHref] else []) ++
    (if m.partition = MatterPartition.body then
      chapterHref chapter :: opfSpineRefs rest (chapter + 1)
    else
      opfSpineRefs rest chapter)

/-- The navmap loop of `create_toc_ncx` (pages.py lines 218-237): each
matter first increments `navcount`; a dedication content tag emits a
navpoint for `text/dedication.xhtml`, a body partition emits a navpoint
for the running chapter number and increments it.  Each emitted entry is
its playOrder, its content src, and its navLabel text (the matter
title). -/
def ncxNavPoints : List Matter → Nat → Nat → List (Nat × String × Option String)
  | [], _, _ => []
  | m :: rest, navcount, chapter =>
    (if m.content = some MatterContent.dedication then
      [(navcount + 1, dedicationHref, m.title)] else []) ++
    (if m.partition = MatterPartition.body then
      (navcount + 1, chapterHref chapter, m.title) ::
        ncxNavPoints rest (navcount + 1) (chapter + 1)
    else
      ncxNavPoints rest (navcount + 1) chapter)

/-- The full navmap of `create_toc_ncx`: the titlepage navpoint first,
then the spine-driven navpoints, then the colophon navpoint (titlepage
and colophon are unconditional structural bookends). -/
def ncxNavmap (spine : List Matter) : List (Nat × String × Option String) :=
  (1, "text/titlepage.xhtml", some "Title page") :: ncxNavPoints spine 1 1 ++
    [((spine.length + 1) + 1, "text/colophon.xhtml", some "Colophon")]

/-- The table-of-contents loop of `create_toc_xhtml` (pages.py lines
256-266): one list item per dedication content tag and per body-partition
matter, with the running chapter number; each entry is its href and its
link text (the matter title). -/
def tocXhtmlItems : List Matter → Nat → List (String × Option String)
  | [], _ => []
  | m :: rest, chapter =>
    (if m.content = some MatterContent.dedication then
      [(dedicationHref, m.title)] else []) ++
    (if m.partition = MatterPartition.body then
      (chapterHref chapter, m.title) :: tocXhtmlItems rest (chapter + 1)
    else
      tocXhtmlItems rest chapter)

/-!
### Spine/manifest lemmas for body-chapter runs
-/

theorem opfSpineRefs_chapters (chapters : List Matter)
    (h : ∀ c ∈ chapters, c.partition = MatterPartition.body ∧ c.content = none) :
    ∀ ch : Nat, opfSpineRefs chapters ch =
      (List.range chapters.length).map (fun i => chapterHref (ch + i)) := by
  induction chapters with
  | nil => intro ch; simp [opfSpineRefs]
  | cons c rest ih =>
    intro ch
    obtain ⟨hp, hc⟩ := h c (List.mem_cons_self c rest)
    rw [opfSpineRefs, hc, hp, if_neg (by simp), if_pos rfl, List.nil_append,
      ih (fun x hx => h x (List.mem_cons_of_mem c hx)) (ch + 1),
      List.length_cons, List.range_succ_eq_map, List.map_cons, List.map_map, Nat.add_zero]
    congr 1
    refine List.map_congr_left ?_
    intro i _
    simp only [Function.comp_apply, Nat.succ_eq_add_one]
    congr 1
    omega

theorem tocXhtmlItems_chapters_fst (chapters : List Matter)
    (h : ∀ c ∈ chapters, c.partition = MatterPartition.body ∧ c.content = none) :
    ∀ ch : Nat, (tocXhtmlItems chapters ch).map Prod.fst =
      (List.range chapters.length).map (fun i => chapterHref (ch + i)) := by
  induction chapters with
  | nil => intro ch; simp [tocXhtmlItems]
  | cons c rest ih =>
    intro ch
    obtain ⟨hp, hc⟩ := h c (List.mem_cons_self c rest)
    rw [tocXhtmlItems, hc, hp, if_neg (by simp), if_pos rfl, List.nil_append, List.map_cons,
      ih (fun x hx => h x (List.mem_cons_of_mem c hx)) (ch + 1),
      List.length_cons, List.range_succ_eq_map, List.map_cons, List.map_map, Nat.add_zero]
    congr 1
    refine List.map_congr_left ?_
    intro i _
    simp only [Function.comp_apply, Nat.succ_eq_add_one]
    congr 1
    omega

theorem tocXhtmlItems_chapters_snd (chapters : List Matter)
    (h : ∀ c ∈ chapters, c.partition = MatterPartition.body ∧ c.content = none) :
    ∀ ch : Nat, (tocXhtmlItems chapters ch).map Prod.snd = chapters.map Matter.title := by
  induction chapters with
  | nil => intro ch; simp [tocXhtmlItems]
  | cons c rest ih =>
    intro ch
    obtain ⟨hp, hc⟩ := h c (List.mem_cons_self c rest)
    rw [tocXhtmlItems, hc, hp, if_neg (by simp), if_pos rfl, List.nil_append, List.map_cons,
      ih (fun x hx => h x (List.mem_cons_of_mem c hx)) (ch + 1), List.map_cons]

theorem ncxNavPoints_chapters_src (chapters : List Matter)
    (h : ∀ c ∈ chapters, c.partition = MatterPartition.body ∧ c.content = none) :
    ∀ nc ch : Nat, (ncxNavPoints chapters nc ch).map (fun e => e.2.1) =
      (List.range chapters.length).map (fun i => chapterHref (ch + i)) := by
  induction chapters with
  | nil => intro nc ch; simp [ncxNavPoints]
  | cons c rest ih =>
    intro nc ch
    obtain ⟨hp, hc⟩ := h c (List.mem_cons_self c rest)
    rw [ncxNavPoints, hc, hp, if_neg (by simp), if_pos rfl, List.nil_append, List.map_cons,
      ih (fun x hx => h x (List.mem_cons_of_mem c hx)) (nc + 1) (ch + 1),
      List.length_cons, List.range_succ_eq_map, List.map_cons, List.map_map, Nat.add_zero]
    congr 1
    refine List.map_congr_left ?_
    intro i _
    simp only [Function.comp_apply, Nat.succ_eq_add_one]
    congr 1
    omega

theorem ncxNavPoints_chapters_title (chapters : List Matter)
    (h : ∀ c ∈ chapters, c.partition = MatterPartition.body ∧ c.content = none) :
    ∀ nc ch : Nat, (ncxNavPoints chapters nc ch).map (fun e => e.2.2) =
      chapters.map Matter.title := by
  induction chapters with
  | nil => intro nc ch; simp [ncxNavPoints]
  | cons c rest ih =>
    intro nc ch
    obtain ⟨hp, hc⟩ := h c (List.mem_cons_self c rest)
    rw [ncxNavPoints, hc, hp, if_neg (by simp), if_pos rfl, List.nil_append, List.map_cons,
      ih (fun x hx => h x (List.mem_cons_of_mem c hx)) (nc + 1) (ch + 1), List.map_cons]

/-- Claim C5: for every metadata record and every spine consisting of an
optional dedication at position 0 followed by K body chapters, the three
generated documents (OPF package, NCX navmap, XHTML table of contents)
reference the same content entries: each lists the dedication iff present
followed by chapters numbered contiguously chapter-1..chapter-K; the
referenced hrefs are identical (same ordering) across the three documents,
and the titles rendered by the NCX and the XHTML TOC both equal the spine
titles in order. -/
theorem claim_C5_manifest_consistency (ded chapters : List Matter)
    (hded : ded = [] ∨ ∃ d, ded = [d] ∧ d.partition = MatterPartition.front ∧
      d.content = some MatterContent.dedication)
    (hch : ∀ c ∈ chapters, c.partition = MatterPartition.body ∧ c.content = none) :
    opfSpineRefs (ded ++ chapters) 1 =
      ded.map (fun _ => dedicationHref) ++
        (List.range chapters.length).map (fun i => chapterHref (1 + i)) ∧
    (tocXhtmlItems (ded ++ chapters) 1).map Prod.fst = opfSpineRefs (ded ++ chapters) 1 ∧
    (ncxNavPoints (ded ++ chapters) 1 1).map (fun e => e.2.1) =
      opfSpineRefs (ded ++ chapters) 1 ∧
    (ncxNavPoints (ded ++ chapters) 1 1).map (fun e => e.2.2) =
      (ded ++ chapters).map Matter.title ∧
    (tocXhtmlItems (ded ++ chapters) 1).map Prod.snd = (ded ++ chapters).map Matter.title := by
  rcases hded with hnil | ⟨d, hd, hdp, hdc⟩
  · subst hnil
    rw [List.nil_append, List.map_nil, List.nil_append]
    exact ⟨opfSpineRefs_chapters chapters hch 1,
      (tocXhtmlItems_chapters_fst chapters hch 1).trans (opfSpineRefs_chapters chapters hch 1).symm,
      (ncxNavPoints_chapters_src chapters hch 1 1).trans (opfSpineRefs_chapters chapters hch 1).symm,
      ncxNavPoints_chapters_title chapters hch 1 1,
      tocXhtmlItems_chapters_snd chapters hch 1⟩
  · subst hd
    have hopf : opfSpineRefs ([d] ++ chapters) 1 =
        dedicationHref :: opfSpineRefs chapters 1 := by
      rw [List.cons_append, List.nil_append, opfSpineRefs, hdc, hdp, if_pos rfl,
        if_neg (by simp), List.singleton_append]
    have htoc : tocXhtmlItems ([d] ++ chapters) 1 =
        (dedicationHref, d.title) :: tocXhtmlItems chapters 1 := by
      rw [List.cons_append, List.nil_append, tocXhtmlItems, hdc, hdp, if_pos rfl,
        if_neg (by simp), List.singleton_append]
    have hncx : ncxNavPoints ([d] ++ chapters) 1 1 =
        (2, dedicationHref, d.title) :: ncxNavPoints chapters 2 1 := by
      rw [List.cons_append, List.nil_append, ncxNavPoints, hdc, hdp, if_pos rfl,
        if_neg (by simp), List.singleton_append]
    refine ⟨?_, ?_, ?_, ?_, ?_⟩
    · rw [hopf, opfSpineRefs_chapters chapters hch 1]
      simp
    · rw [htoc, hopf, List.map_cons, tocXhtmlItems_chapters_fst chapters hch 1,
        opfSpineRefs_chapters chapters hch 1]
    · rw [hncx, hopf, List.map_cons, ncxNavPoints_chapters_src chapters hch 2 1,
        opfSpineRefs_chapters chapters hch 1]
    · rw [hncx, List.map_cons, ncxNavPoints_chapters_title chapters hch 2 1]
      simp
    · rw [htoc, List.map_cons, tocXhtmlItems_chapters_snd chapters hch 1]
      simp

/-- Claim C5 witness: a dedication plus two body chapters. -/
theorem claim_C5_manifest_consistency_witness :
    opfSpineRefs ([{ partition := MatterPartition.front, content := some MatterContent.dedication, title := some "Dedication" }] ++ [{ partition := MatterPartition.body, content := none, title := some "One" }, { partition := MatterPartition.body, content := none, title := some "Two" }]) 1 =
      [{ partition := MatterPartition.front, content := some MatterContent.dedication, title := some "Dedication" : Matter }].map (fun _ => dedicationHref) ++
        (List.range 2).map (fun i => chapterHref (1 + i)) ∧
    (tocXhtmlItems ([{ partition := MatterPartition.front, content := some MatterContent.dedication, title := some "Dedication" }] ++ [{ partition := MatterPartition.body, content := none, title := some "One" }, { partition := MatterPartition.body, content := none, title := some "Two" }]) 1).map Prod.fst =
      opfSpineRefs ([{ partition := MatterPartition.front, content := some MatterContent.dedication, title := some "Dedication" }] ++ [{ partition := MatterPartition.body, content := none, title := some "One" }, { partition := MatterPartition.body, content := none, title := some "Two" }]) 1 := by
  have h := claim_C5_manifest_consistency
    [{ partition := MatterPartition.front, content := some MatterContent.dedication, title := some "Dedication" }]
    [{ partition := MatterPartition.body, content := none, title := some "One" }, { partition := MatterPartition.body, content := none, title := some "Two" }]
    (Or.inr ⟨_, rfl, rfl, rfl⟩) (by decide)
  exact ⟨h.1, h.2.1⟩

/-!
Embedding of the chapter discovery/renumbering step of `CreateWork.build`
(`src/chapisha/create/create.py` lines 678-696):

```
CHAPTERS = [f for f in w.namelist() if f.startswith("EPUB/text/ch")]
CHAPTERS.sort()
for chapter in CHAPTERS:
    file_as = F"EPUB/text/chapter-\x7bchapter.split('.')[0][-1]\x7d.xhtml"
    ...
    if file_as != chapter:
        REMOVES.append(chapter)
    ...
    w.writestr(file_as, str(chapter_xml))
```
-/

/-- Python `s.startswith(pre)` over explicit character lists. -/
def startsWithL : List Char → List Char → Bool
  | [], _ => true
  | _ :: _, [] => false
  | a :: ps, b :: ss => a = b && startsWithL ps ss

/-- Python `s.startswith(pre)` for strings. -/
def pyStartsWith (pre s : String) : Bool := startsWithL pre.toList s.toList

/-- Python string comparison (`list.sort` order): lexicographic by code
point, with a proper prefix ordered first. -/
def lexLeB : List Char → List Char → Bool
  | [], _ => true
  | _ :: _, [] => false
  | a :: as, b :: bs => if a = b then lexLeB as bs else decide (a < b)

/-- The `≤` relation used by `CHAPTERS.sort()`. -/
def strLe (s t : String) : Prop := lexLeB s.toList t.toList = true

instance : DecidableRel strLe := fun s t =>
  if h : lexLeB s.toList t.toList = true then Decidable.isTrue h else Decidable.isFalse h

/-- `F"EPUB/text/chapter-\x7bchapter.split('.')[0][-1]\x7d.xhtml"`: the
canonical target name is built from the LAST CHARACTER of the source name
before its first dot (the discovered names are never empty, so the
`getLastD` default is never used). -/
def fileAs (chapter : String) : String :=
  "EPUB/text/chapter-" ++ String.mk [(chapter.toList.takeWhile (fun c => c ≠ '.')).getLastD ' '] ++
    ".xhtml"

/-- `CHAPTERS`: the names matching the chapter-path convention, sorted by
Python string order. -/
def discoveredChapters (names : List String) : List String :=
  List.insertionSort strLe (names.filter (fun f => pyStartsWith "EPUB/text/ch" f))

/-- The names the chapter loop writes (`file_as`), in loop order. -/
def chapterTargets (names : List String) : List String :=
  (discoveredChapters names).map fileAs

/-- The original chapter names the loop schedules for deletion (those
whose `file_as` differs from the discovered name). -/
def chapterRemoves (names : List String) : List String :=
  (discoveredChapters names).filter (fun c => fileAs c ≠ c)

/-- Claim C6: the claim says discovery ordinals with gaps are re-emitted
contiguously (`ch002`, `ch005`, `ch009` become `chapter-1`..`chapter-3`).
The code instead takes the last character of each stem, producing
`chapter-2`, `chapter-5`, `chapter-9` — while the OPF/NCX/TOC generators
built in the same `build()` reference `chapter-1`..`chapter-3`, so the
produced archive and its own manifests disagree (a code bug: the
manifest documents and the spec agree on contiguous renumbering). -/
theorem claim_C6_gap_closing_violated :
    chapterTargets ["EPUB/text/ch002.xhtml", "EPUB/text/ch005.xhtml", "EPUB/text/ch009.xhtml"] =
      ["EPUB/text/chapter-2.xhtml", "EPUB/text/chapter-5.xhtml", "EPUB/text/chapter-9.xhtml"] ∧
    chapterTargets ["EPUB/text/ch002.xhtml", "EPUB/text/ch005.xhtml", "EPUB/text/ch009.xhtml"] ≠
      ["EPUB/text/chapter-1.xhtml", "EPUB/text/chapter-2.xhtml", "EPUB/text/chapter-3.xhtml"] ∧
    opfSpineRefs [{ partition := MatterPartition.body, content := none, title := some "One" },
      { partition := MatterPartition.body, content := none, title := some "Two" },
      { partition := MatterPartition.body, content := none, title := some "Three" }] 1 =
      ["text/chapter-1.xhtml", "text/chapter-2.xhtml", "text/chapter-3.xhtml"] := by
  exact ⟨by decide, by decide, by decide⟩

/-- Claim C7: the claim says renumbering an already-contiguous 1..N set is
the identity with nothing scheduled for deletion, for every N.  At N = 10
the code renames `chapter-10` to `chapter-0` (last character of the stem)
and schedules `chapter-10` for deletion, so the claim fails; as with C6
this contradicts the contiguous numbering assumed by the manifest
generators in the same build (a code bug). -/
theorem claim_C7_idempotence_violated_at_ten :
    chapterRemoves ((List.range 10).map
        (fun i => "EPUB/text/chapter-" ++ toString (i + 1) ++ ".xhtml")) =
      ["EPUB/text/chapter-10.xhtml"] ∧
    "EPUB/text/chapter-0.xhtml" ∈ chapterTargets ((List.range 10).map
        (fun i => "EPUB/text/chapter-" ++ toString (i + 1) ++ ".xhtml")) ∧
    chapterTargets ((List.range 10).map
        (fun i => "EPUB/text/chapter-" ++ toString (i + 1) ++ ".xhtml")) ≠
      discoveredChapters ((List.range 10).map
        (fun i => "EPUB/text/chapter-" ++ toString (i + 1) ++ ".xhtml")) := by
  exact ⟨by decide, by decide, by decide⟩

/-!
Embedding of the per-chapter word count of `CreateWork.build`
(`src/chapisha/create/create.py` lines 693-695):

```
words = BeautifulSoup(str(chapter_xml.section), "lxml").get_text()
self.metadata.word_count += len(words.replace("\n", " ").replace("  ", " ").strip().split())
```
-/

/-- The whitespace class shared by Python `str.split()` and
`str.strip()` (ASCII part; both use the same class, which is all the
model needs). -/
def wsB (c : Char) : Bool :=
  c == ' ' || c == '\t' || c == '\n' || c == '\r' || c == '\x0b' || c == '\x0c'

/-- `words.replace("\n", " ")` acts character-by-character. -/
def nlToSp (c : Char) : Char := if c = '\n' then ' ' else c

/-- Python `str.replace("  ", " ")`: scan left to right; each
non-overlapping occurrence of two spaces is replaced by one, and the scan
resumes after the replacement. -/
def collapse2 : List Char → List Char
  | [] => []
  | [c] => [c]
  | c₁ :: c₂ :: rest =>
    if c₁ = ' ' ∧ c₂ = ' ' then ' ' :: collapse2 rest
    else c₁ :: collapse2 (c₂ :: rest)

/-- Python `str.strip()`: drop whitespace from both ends. -/
def pyStrip (l : List Char) : List Char :=
  ((l.dropWhile wsB).reverse.dropWhile wsB).reverse

/-- Python `str.split()` with no argument: the maximal runs of
non-whitespace characters (whitespace runs separate tokens and produce no
empty tokens). -/
def tokens : List Char → List (List Char)
  | [] => []
  | c :: cs =>
    if wsB c then tokens cs
    else (c :: cs.takeWhile (fun x => !wsB x)) :: tokens (cs.dropWhile (fun x => !wsB x))
termination_by l => l.length
decreasing_by
  all_goals simp only [List.length_cons]
  · omega
  · exact Nat.lt_succ_of_le (List.Sublist.length_le (List.dropWhile_sublist _))

/-- Markup tree: what BeautifulSoup parses a chapter `section` into.  A
node is either a text node or an element with a tag name, attributes and
children. -/
inductive Markup where
  | text (s : List Char)
  | elem (tag : List Char) (attrs : List (List Char × List Char)) (children : List Markup)

mutual
/-- BeautifulSoup `get_text()`: concatenate every text node in document
order; tag names and attribute values never appear. -/
def getText : Markup → List Char
  | Markup.text s => s
  | Markup.elem _ _ cs => getTextList cs

/-- `get_text()` over a list of sibling nodes. -/
def getTextList : List Markup → List Char
  | [] => []
  | m :: ms => getText m ++ getTextList ms
end

/-- The per-chapter word count computed by `build()`: the extracted text,
newline-to-space, one pass of double-space collapsing, strip, then
whitespace split and count. -/
def chapterWordCount (m : Markup) : Nat :=
  (tokens (pyStrip (collapse2 ((getText m).map nlToSp)))).length

/-- The aggregate word count: `word_count = 0` then `+=` per chapter in
loop order. -/
def buildWordCount (ms : List Markup) : Nat :=
  ms.foldl (fun acc m => acc + chapterWordCount m) 0

/-!
### Word-count lemmas: the replace/strip chain never changes the tokens
-/

theorem tokens_cons_ws {c : Char} (l : List Char) (h : wsB c = true) :
    tokens (c :: l) = tokens l := by
  rw [tokens, if_pos h]

theorem tokens_cons_not_ws {c : Char} (l : List Char) (h : wsB c = false) :
    tokens (c :: l) =
      (c :: l.takeWhile (fun x => !wsB x)) :: tokens (l.dropWhile (fun x => !wsB x)) := by
  rw [tokens, if_neg (by rw [h]; exact Bool.false_ne_true)]

theorem wsB_nlToSp (c : Char) : wsB (nlToSp c) = wsB c := by
  by_cases h : c = '\n'
  · subst h; decide
  · rw [nlToSp, if_neg h]

theorem nlToSp_eq_self_of_not_ws {c : Char} (h : wsB c = false) : nlToSp c = c := by
  rw [nlToSp, if_neg]
  intro he
  subst he
  exact absurd h (by decide)

theorem notWs_comp_nlToSp : ((fun x => !wsB x) ∘ nlToSp) = fun x : Char => !wsB x :=
  funext (fun c => by rw [Function.comp_apply, wsB_nlToSp])

theorem map_nlToSp_of_all_not_ws (l : List Char) (h : ∀ x ∈ l, wsB x = false) :
    l.map nlToSp = l := by
  refine (List.map_congr_left ?_).trans (List.map_id l)
  intro x hx
  exact nlToSp_eq_self_of_not_ws (h x hx)

theorem tokens_map_nlToSp (l : List Char) : tokens (l.map nlToSp) = tokens l := by
  induction l using tokens.induct with
  | case1 => rfl
  | case2 c cs hws ih =>
    rw [List.map_cons, tokens_cons_ws _ (by rw [wsB_nlToSp]; exact hws),
      tokens_cons_ws _ hws, ih]
  | case3 c cs hws ih =>
    have hws₂ : wsB c = false := Bool.eq_false_iff.mpr hws
    rw [List.map_cons, tokens_cons_not_ws _ (by rw [wsB_nlToSp]; exact hws₂),
      tokens_cons_not_ws _ hws₂, List.takeWhile_map, List.dropWhile_map, notWs_comp_nlToSp,
      nlToSp_eq_self_of_not_ws hws₂,
      map_nlToSp_of_all_not_ws _ (fun x hx => by
        have := List.mem_takeWhile_imp hx
        simpa using this),
      ih]

theorem collapse2_takeWhile_dropWhile (l : List Char) :
    (collapse2 l).takeWhile (fun x => !wsB x) = l.takeWhile (fun x => !wsB x) ∧
    (collapse2 l).dropWhile (fun x => !wsB x) = collapse2 (l.dropWhile (fun x => !wsB x)) := by
  induction l using collapse2.induct with
  | case1 => exact ⟨rfl, rfl⟩
  | case2 c =>
    refine ⟨rfl, ?_⟩
    show List.dropWhile (fun x => !wsB x) [c] = collapse2 (List.dropWhile (fun x => !wsB x) [c])
    by_cases hw : (!wsB c) = true
    · rw [List.dropWhile_cons, if_pos hw, List.dropWhile_nil, collapse2]
    · rw [List.dropWhile_cons, if_neg hw, collapse2]
  | case3 c₁ c₂ rest hsp ih =>
    obtain ⟨h₁, h₂⟩ := hsp
    subst h₁; subst h₂
    rw [collapse2, if_pos ⟨rfl, rfl⟩]
    constructor
    · rw [List.takeWhile_cons, if_neg (by decide), List.takeWhile_cons, if_neg (by decide)]
    · rw [List.dropWhile_cons, if_neg (by decide), List.dropWhile_cons, if_neg (by decide),
        collapse2, if_pos ⟨rfl, rfl⟩]
  | case4 c₁ c₂ rest hsp ih =>
    rw [collapse2, if_neg hsp]
    by_cases hw : wsB c₁ = true
    · constructor
      · rw [List.takeWhile_cons, if_neg (by rw [hw]; simp), List.takeWhile_cons,
          if_neg (by rw [hw]; simp)]
      · rw [List.dropWhile_cons, if_neg (by rw [hw]; simp), List.dropWhile_cons,
          if_neg (by rw [hw]; simp), collapse2, if_neg hsp]
    · have hw₂ : (!wsB c₁) = true := by simp [Bool.eq_false_iff.mpr hw]
      constructor
      · rw [List.takeWhile_cons, if_pos hw₂, List.takeWhile_cons, if_pos hw₂, ih.1]
      · rw [List.dropWhile_cons, if_pos hw₂, List.dropWhile_cons, if_pos hw₂, ih.2]

theorem tokens_collapse2_aux : ∀ (n : Nat) (l : List Char), l.length ≤ n →
    tokens (collapse2 l) = tokens l := by
  intro n
  induction n with
  | zero =>
    intro l hl
    rw [List.length_eq_zero.mp (Nat.le_zero.mp hl)]
    rfl
  | succ n ih =>
    intro l hl
    match l with
    | [] => rfl
    | [c] => rfl
    | c₁ :: c₂ :: rest =>
      simp only [List.length_cons] at hl
      by_cases hsp : c₁ = ' ' ∧ c₂ = ' '
      · obtain ⟨h₁, h₂⟩ := hsp
        subst h₁; subst h₂
        rw [collapse2, if_pos ⟨rfl, rfl⟩, tokens_cons_ws _ (by decide),
          tokens_cons_ws _ (by decide), tokens_cons_ws _ (by decide)]
        exact ih rest (by omega)
      · rw [collapse2, if_neg hsp]
        by_cases hw : wsB c₁ = true
        · rw [tokens_cons_ws _ hw, tokens_cons_ws _ hw]
          exact ih (c₂ :: rest) (by simpa using Nat.le_of_succ_le_succ (by simpa using hl))
        · have hw₂ : wsB c₁ = false := Bool.eq_false_iff.mpr hw
          rw [tokens_cons_not_ws _ hw₂, tokens_cons_not_ws _ hw₂,
            (collapse2_takeWhile_dropWhile (c₂ :: rest)).1,
            (collapse2_takeWhile_dropWhile (c₂ :: rest)).2]
          have hlen : ((c₂ :: rest).dropWhile (fun x => !wsB x)).length ≤ n := by
            have := List.Sublist.length_le (List.dropWhile_sublist (l := c₂ :: rest)
              (p := fun x => !wsB x))
            simp only [List.length_cons] at this
            omega
          rw [ih _ hlen]

theorem tokens_collapse2 (l : List Char) : tokens (collapse2 l) = tokens l :=
  tokens_collapse2_aux l.length l le_rfl

theorem tokens_nil : tokens [] = [] := by
  rw [tokens]

theorem tokens_all_ws (l : List Char) (h : ∀ c ∈ l, wsB c = true) : tokens l = [] := by
  induction l with
  | nil => exact tokens_nil
  | cons c cs ih =>
    rw [tokens_cons_ws _ (h c (List.mem_cons_self c cs))]
    exact ih (fun x hx => h x (List.mem_cons_of_mem c hx))

theorem takeWhile_append_ws (b : List Char) (hb : ∀ c ∈ b, wsB c = true) :
    ∀ cs : List Char, (cs ++ b).takeWhile (fun x => !wsB x) = cs.takeWhile (fun x => !wsB x) := by
  intro cs
  induction cs with
  | nil =>
    simp only [List.nil_append, List.takeWhile_nil]
    cases b with
    | nil => rfl
    | cons c rest =>
      rw [List.takeWhile_cons, if_neg (by rw [hb c (List.mem_cons_self c rest)]; simp)]
  | cons c cs ih =>
    rw [List.cons_append, List.takeWhile_cons, List.takeWhile_cons]
    by_cases hw : (!wsB c) = true
    · rw [if_pos hw, if_pos hw, ih]
    · rw [if_neg hw, if_neg hw]

theorem dropWhile_append_ws (b : List Char) (hb : ∀ c ∈ b, wsB c = true) :
    ∀ cs : List Char, (cs ++ b).dropWhile (fun x => !wsB x) = cs.dropWhile (fun x => !wsB x) ++ b := by
  intro cs
  induction cs with
  | nil =>
    simp only [List.nil_append, List.dropWhile_nil]
    cases b with
    | nil => rfl
    | cons c rest =>
      rw [List.dropWhile_cons, if_neg (by rw [hb c (List.mem_cons_self c rest)]; simp)]
  | cons c cs ih =>
    rw [List.cons_append, List.dropWhile_cons, List.dropWhile_cons]
    by_cases hw : (!wsB c) = true
    · rw [if_pos hw, if_pos hw, ih]
    · rw [if_neg hw, if_neg hw, List.cons_append]

theorem tokens_append_ws (b : List Char) (hb : ∀ c ∈ b, wsB c = true) :
    ∀ l : List Char, tokens (l ++ b) = tokens l := by
  intro l
  induction l using tokens.induct with
  | case1 =>
    rw [List.nil_append, tokens_nil]
    exact tokens_all_ws b hb
  | case2 c cs hws ih =>
    rw [List.cons_append, tokens_cons_ws _ hws, tokens_cons_ws _ hws, ih]
  | case3 c cs hws ih =>
    have hws₂ : wsB c = false := Bool.eq_false_iff.mpr hws
    rw [List.cons_append, tokens_cons_not_ws _ hws₂, tokens_cons_not_ws _ hws₂,
      takeWhile_append_ws b hb cs, dropWhile_append_ws b hb cs, ih]

theorem tokens_dropWhile_ws (l : List Char) : tokens (l.dropWhile wsB) = tokens l := by
  induction l with
  | nil => rfl
  | cons c cs ih =>
    rw [List.dropWhile_cons]
    by_cases hw : wsB c = true
    · rw [if_pos hw, tokens_cons_ws _ hw, ih]
    · rw [if_neg (by rw [Bool.eq_false_iff.mpr hw]; exact Bool.false_ne_true)]

theorem tokens_pyStrip (l : List Char) : tokens (pyStrip l) = tokens l := by
  rw [pyStrip]
  set m := l.dropWhile wsB with hm
  have hsplit : m = (m.reverse.dropWhile wsB).reverse ++ (m.reverse.takeWhile wsB).reverse := by
    conv_lhs => rw [← List.reverse_reverse m,
      ← List.takeWhile_append_dropWhile (p := wsB) (l := m.reverse)]
    rw [List.reverse_append]
  have hws : ∀ c ∈ (m.reverse.takeWhile wsB).reverse, wsB c = true := by
    intro c hc
    exact List.mem_takeWhile_imp (List.mem_reverse.mp hc)
  calc tokens (m.reverse.dropWhile wsB).reverse
      = tokens ((m.reverse.dropWhile wsB).reverse ++ (m.reverse.takeWhile wsB).reverse) :=
        (tokens_append_ws _ hws _).symm
    _ = tokens m := by rw [← hsplit]
    _ = tokens l := by rw [hm, tokens_dropWhile_ws]

theorem buildWordCount_aux (ms : List Markup) :
    ∀ acc : Nat, ms.foldl (fun acc m => acc + chapterWordCount m) acc =
      acc + (ms.map chapterWordCount).sum := by
  induction ms with
  | nil => intro acc; simp
  | cons m rest ih =>
    intro acc
    rw [List.foldl_cons, ih, List.map_cons, List.sum_cons]
    omega

/-- Claim C8: the per-chapter word count equals the number of
whitespace-delimited tokens of the chapter's extracted text content
(tags, tag names and attribute values never contribute — `getText` keeps
text nodes only, and the newline-replace / double-space-collapse / strip
chain never changes the token count); the aggregate is the sum of the
per-chapter counts, counts every chapter exactly once, and is invariant
under permuting the chapter processing order. -/
theorem claim_C8_word_count :
    (∀ m : Markup, chapterWordCount m = (tokens (getText m)).length) ∧
    (∀ ms : List Markup, buildWordCount ms = (ms.map chapterWordCount).sum) ∧
    (∀ ms ms₂ : List Markup, ms.Perm ms₂ → buildWordCount ms = buildWordCount ms₂) := by
  have hsum : ∀ ms : List Markup, buildWordCount ms = (ms.map chapterWordCount).sum := by
    intro ms
    rw [buildWordCount, buildWordCount_aux ms 0, Nat.zero_add]
  refine ⟨?_, hsum, ?_⟩
  · intro m
    rw [chapterWordCount, tokens_pyStrip, tokens_collapse2, tokens_map_nlToSp]
  · intro ms ms₂ hperm
    rw [hsum ms, hsum ms₂]
    exact List.Perm.sum_eq (List.Perm.map chapterWordCount hperm)

/-- Claim C8 witness: a two-chapter list and its swap have the same
aggregate count. -/
theorem claim_C8_word_count_witness :
    buildWordCount [Markup.text [' ', 'a', 'b', ' ', 'c'],
        Markup.elem ['p'] [(['i'], ['d'])] [Markup.text ['x']]] =
      buildWordCount [Markup.elem ['p'] [(['i'], ['d'])] [Markup.text ['x']],
        Markup.text [' ', 'a', 'b', ' ', 'c']] :=
  claim_C8_word_count.2.2 _ _ (List.Perm.swap _ _ _)

/-!
Embedding of `src/chapisha/models/metadata.py` and
`CreateWork.set_metadata` (`src/chapisha/create/create.py` lines 372-418):
the update dict is validated as a temporary `WorkMetadata` (so `title` and
`creator`, the fields without defaults, must be present or pydantic raises),
then merged into the existing record with
`self.metadata.copy(update=updated_metadata.dict(exclude_unset=True))` —
only keys explicitly set in the update replace old values.
-/

/-- `ContributorRoles` from `models/metadata.py`. -/
inductive ContributorRole where
  | artist
  | editor
  | translator
deriving DecidableEq, Repr

/-- `Contributor` from `models/metadata.py`. -/
structure Contributor where
  role : ContributorRole
  name : String
  terms : String
  year : Option String
deriving DecidableEq, Repr

/-- `WorkMetadata` (extending `DublinCoreMetadata`) from
`models/metadata.py`.  `title` and `creator` are required; `identifier`
(fresh urn), `language` ("en"), `rights` ("All rights reserved.") and
`isodate` (today) have defaults; the rest default to `None`.  Dates and
URIs are modelled as strings. -/
structure WorkMetadata where
  identifier : String
  title : String
  language : String
  rights : String
  description : Option String
  creator : List String
  contributor : Option (List Contributor)
  isodate : String
  subject : Option (List String)
  publisher : Option String
  long_description : Option String
  long_rights : Option (List String)
  work_uri : Option String
  publisher_uri : Option String
  word_count : Option Nat
deriving DecidableEq, Repr

/-- An update passed to `set_metadata`: `some v` means the key is
explicitly present in the update dict (and hence survives
`dict(exclude_unset=True)`); `none` means the key is absent. -/
structure MetadataUpdate where
  identifier : Option String
  title : Option String
  language : Option String
  rights : Option String
  description : Option String
  creator : Option (List String)
  contributor : Option (List Contributor)
  isodate : Option String
  subject : Option (List String)
  publisher : Option String
  long_description : Option String
  long_rights : Option (List String)
  work_uri : Option String
  publisher_uri : Option String
  word_count : Option Nat
deriving DecidableEq, Repr

/-- Pydantic `old.copy(update=u.dict(exclude_unset=True))`: a field is
replaced when its key is present in the update, otherwise kept. -/
def copyUpdate (old : WorkMetadata) (u : MetadataUpdate) : WorkMetadata :=
  { identifier := u.identifier.getD old.identifier
    title := u.title.getD old.title
    language := u.language.getD old.language
    rights := u.rights.getD old.rights
    description := match u.description with | some v => some v | none => old.description
    creator := u.creator.getD old.creator
    contributor := match u.contributor with | some v => some v | none => old.contributor
    isodate := u.isodate.getD old.isodate
    subject := match u.subject with | some v => some v | none => old.subject
    publisher := match u.publisher with | some v => some v | none => old.publisher
    long_description :=
      match u.long_description with | some v => some v | none => old.long_description
    long_rights := match u.long_rights with | some v => some v | none => old.long_rights
    work_uri := match u.work_uri with | some v => some v | none => old.work_uri
    publisher_uri := match u.publisher_uri with | some v => some v | none => old.publisher_uri
    word_count := match u.word_count with | some v => some v | none => old.word_count }

/-- `WorkMetadata(**metadata)` when no record exists yet: required fields
must be present, defaulted fields fall back to their pydantic defaults
(`freshUrn` stands for the generated `uuid4().urn`, `today` for
`date.today()`). -/
def materializeMetadata (u : MetadataUpdate) (freshUrn today : String) : WorkMetadata :=
  { identifier := u.identifier.getD freshUrn
    title := u.title.getD ""
    language := u.language.getD "en"
    rights := u.rights.getD "All rights reserved."
    description := u.description
    creator := u.creator.getD []
    contributor := u.contributor
    isodate := u.isodate.getD today
    subject := u.subject
    publisher := u.publisher
    long_description := u.long_description
    long_rights := u.long_rights
    work_uri := u.work_uri
    publisher_uri := u.publisher_uri
    word_count := u.word_count }

/-- `CreateWork.set_metadata`: validating `WorkMetadata(**metadata)`
requires the no-default fields `title` and `creator` in every update
(otherwise pydantic raises, modelled as `none`); then either merge into
the existing record via `copy(update=...)` or materialise a fresh one. -/
def set_metadata (current : Option WorkMetadata) (u : MetadataUpdate)
    (freshUrn today : String) : Option WorkMetadata :=
  match u.title, u.creator with
  | some _, some _ =>
    match current with
    | some old => some (copyUpdate old u)
    | none => some (materializeMetadata u freshUrn today)
  | _, _ => none

/-- Claim C9: metadata updates are additive — for every existing record
and every valid partial update (valid means the required `title` and
`creator` are present), `set_metadata` merges via `copy(update=...)`: every
field whose key is omitted from the update keeps its previous value
(optional fields included), and exactly the fields present in the update
are replaced by the supplied values. -/
theorem claim_C9_metadata_updates_additive (old : WorkMetadata) (u : MetadataUpdate)
    (freshUrn today t : String) (c : List String)
    (htitle : u.title = some t) (hcreator : u.creator = some c) :
    set_metadata (some old) u freshUrn today = some (copyUpdate old u) ∧
    (u.identifier = none → (copyUpdate old u).identifier = old.identifier) ∧
    (u.language = none → (copyUpdate old u).language = old.language) ∧
    (u.rights = none → (copyUpdate old u).rights = old.rights) ∧
    (u.isodate = none → (copyUpdate old u).isodate = old.isodate) ∧
    (u.description = none → (copyUpdate old u).description = old.description) ∧
    (u.contributor = none → (copyUpdate old u).contributor = old.contributor) ∧
    (u.subject = none → (copyUpdate old u).subject = old.subject) ∧
    (u.publisher = none → (copyUpdate old u).publisher = old.publisher) ∧
    (u.long_description = none → (copyUpdate old u).long_description = old.long_description) ∧
    (u.long_rights = none → (copyUpdate old u).long_rights = old.long_rights) ∧
    (u.work_uri = none → (copyUpdate old u).work_uri = old.work_uri) ∧
    (u.publisher_uri = none → (copyUpdate old u).publisher_uri = old.publisher_uri) ∧
    (u.word_count = none → (copyUpdate old u).word_count = old.word_count) ∧
    ((copyUpdate old u).title = t) ∧
    ((copyUpdate old u).creator = c) ∧
    (∀ v, u.description = some v → (copyUpdate old u).description = some v) ∧
    (∀ v, u.publisher = some v → (copyUpdate old u).publisher = some v) := by
  refine ⟨by simp only [set_metadata, htitle, hcreator], ?_, ?_, ?_, ?_, ?_, ?_, ?_, ?_, ?_, ?_,
    ?_, ?_, ?_, ?_, ?_, ?_, ?_⟩
  · intro h; simp [copyUpdate, h]
  · intro h; simp [copyUpdate, h]
  · intro h; simp [copyUpdate, h]
  · intro h; simp [copyUpdate, h]
  · intro h; simp [copyUpdate, h]
  · intro h; simp [copyUpdate, h]
  · intro h; simp [copyUpdate, h]
  · intro h; simp [copyUpdate, h]
  · intro h; simp [copyUpdate, h]
  · intro h; simp [copyUpdate, h]
  · intro h; simp [copyUpdate, h]
  · intro h; simp [copyUpdate, h]
  · intro h; simp [copyUpdate, h]
  · simp [copyUpdate, htitle]
  · simp [copyUpdate, hcreator]
  · intro v hv; simp [copyUpdate, hv]
  · intro v hv; simp [copyUpdate, hv]

/-- Claim C9 witness: a record with `description`, `subject`, `publisher`
and `word_count` set, updated with only `title` and `creator`: the
optional fields survive and `title` is replaced. -/
theorem claim_C9_metadata_updates_additive_witness :
    (copyUpdate
      { identifier := "urn:x", title := "T", language := "en",
        rights := "All rights reserved.", description := some "desc", creator := ["A"],
        contributor := none, isodate := "2020-01-01", subject := some ["sf"],
        publisher := some "Pub", long_description := none, long_rights := none,
        work_uri := none, publisher_uri := none, word_count := some 100 }
      { identifier := none, title := some "T2", language := none, rights := none,
        description := none, creator := some ["A"], contributor := none, isodate := none,
        subject := none, publisher := none, long_description := none, long_rights := none,
        work_uri := none, publisher_uri := none, word_count := none }).description =
      some "desc" ∧
    (copyUpdate
      { identifier := "urn:x", title := "T", language := "en",
        rights := "All rights reserved.", description := some "desc", creator := ["A"],
        contributor := none, isodate := "2020-01-01", subject := some ["sf"],
        publisher := some "Pub", long_description := none, long_rights := none,
        work_uri := none, publisher_uri := none, word_count := some 100 }
      { identifier := none, title := some "T2", language := none, rights := none,
        description := none, creator := some ["A"], contributor := none, isodate := none,
        subject := none, publisher := none, long_description := none, long_rights := none,
        work_uri := none, publisher_uri := none, word_count := none }).publisher =
      some "Pub" ∧
    (copyUpdate
      { identifier := "urn:x", title := "T", language := "en",
        rights := "All rights reserved.", description := some "desc", creator := ["A"],
        contributor := none, isodate := "2020-01-01", subject := some ["sf"],
        publisher := some "Pub", long_description := none, long_rights := none,
        work_uri := none, publisher_uri := none, word_count := some 100 }
      { identifier := none, title := some "T2", language := none, rights := none,
        description := none, creator := some ["A"], contributor := none, isodate := none,
        subject := none, publisher := none, long_description := none, long_rights := none,
        work_uri := none, publisher_uri := none, word_count := none }).title = "T2" := by
  obtain ⟨hset, hid, hlang, hrights, hiso, hdesc, hcontr, hsubj, hpub, hldesc, hlrights,
    hwuri, hpuri, hwc, htitle, hcreator, hdesc₂, hpub₂⟩ :=
    claim_C9_metadata_updates_additive
      { identifier := "urn:x", title := "T", language := "en",
        rights := "All rights reserved.", description := some "desc", creator := ["A"],
        contributor := none, isodate := "2020-01-01", subject := some ["sf"],
        publisher := some "Pub", long_description := none, long_rights := none,
        work_uri := none, publisher_uri := none, word_count := some 100 }
      { identifier := none, title := some "T2", language := none, rights := none,
        description := none, creator := some ["A"], contributor := none, isodate := none,
        subject := none, publisher := none, long_description := none, long_rights := none,
        work_uri := none, publisher_uri := none, word_count := none }
      "urn:new" "2021-01-01" "T2" ["A"] rfl rfl
  exact ⟨hdesc rfl, hpub rfl, htitle⟩

end Chapisha
